import Mathlib

/-!
Verification of `similar_images.py` (OldGames/Similar_Images).

The Python source is shallowly embedded below:

* `_bin_array num m` embeds `_bin_array` (line 37): `np.binary_repr(num)`
  (binary digits, most-significant first, `[0]` for `0`) zero-filled on the
  left to width `m`.
* `HashedImage` embeds the `HashedImage` class: the stored path, the name of
  the hash function (`get_similar_images` always uses the default, `phash`)
  and the bit array computed in `__init__`
  (`_bin_array(int(str(hash), 16), _hash_size * BITS_PER_BYTE)` with
  `_hash_size = 8`, `BITS_PER_BYTE = 8`).  The external perceptual hash and
  the operating system's `realpath` are abstracted as the fields of
  `SimConfig` (both are deterministic functions during one run).
* `hashedEq` embeds `HashedImage.__eq__` (line 73): `False` when the hash
  functions differ, otherwise comparison of the `realpath`-resolved paths.
* `dictInsert` / `dictLookup` embed the Python `dict` operations used on
  `images` (lines 90-96): insertion overwrites the value of an existing key
  in place and appends a fresh key at the end, matching insertion-order
  semantics of `dict` and `dict.values()`.
* `sqDistZ` is the squared Euclidean distance between two coordinate lists,
  and `queryBallPoint` embeds `scipy.spatial.KDTree.query_ball_point`
  (line 103): the indices `i` of the data points whose Euclidean distance to
  the query point is at most `r`, i.e. whose squared distance is at most
  `r ^ 2`.  `kdtreeBuild` embeds the `scipy.spatial.KDTree` constructor
  (line 99), which raises `ValueError` unless the data forms a non-empty
  two-dimensional array (a non-empty list of rows of equal length).
* `get_similar_images` embeds `get_similar_images` (lines 89-107) with the
  directory listings abstracted as the path lists `existing` / `newImgs`
  (`_list_images` is a pure traversal, so both calls on the same path yield
  the same list).  The `defaultdict(list)` result is an association list
  built by `resInsert`: a key appears exactly when at least one append to it
  was executed.  Exceptions are modelled by `Except SimError`.
* `similar_images_pairs` embeds `similar_images_pairs` (lines 109-114):
  the set of `frozenset((base_image, similar_img.path))` values becomes a
  `Finset (Finset String)`.
-/

/-- Errors the embedded pipeline can signal.  `valueError` stands for
`ValueError` raised by numpy/scipy, `keyError` for a `dict` lookup miss.
`configurationError` represents the `ConfigurationError` named by the
specification; it is listed so that statements about it can be expressed. -/
inductive SimError : Type where
  | valueError : SimError
  | keyError : SimError
  | configurationError : SimError
deriving DecidableEq, Repr

/-- Binary digits, most significant first, via a structurally decreasing
fuel argument (the recursion `n ↦ n / 2` terminates because `n / 2 < n`;
fuel `n` suffices, see `natBitsAux_fuel`). -/
def natBitsAux : Nat → Nat → List Nat
  | _, 0 => []
  | 0, _ + 1 => []
  | fuel + 1, n + 1 => natBitsAux fuel ((n + 1) / 2) ++ [(n + 1) % 2]

/-- Binary digits of `n`, most significant first; empty for `0`
(the recursive part of `np.binary_repr`). -/
def natBits (n : Nat) : List Nat := natBitsAux n n

theorem natBits_zero : natBits 0 = [] := rfl

theorem natBitsAux_fuel :
    ∀ n fuel fuel', n ≤ fuel → n ≤ fuel' → natBitsAux fuel n = natBitsAux fuel' n := by
  intro n
  induction n using Nat.strong_induction_on with
  | _ n ih =>
    intro fuel fuel' hf hf'
    match n, fuel, fuel' with
    | 0, fuel, fuel' =>
      cases fuel <;> cases fuel' <;> rfl
    | n + 1, fuel + 1, fuel' + 1 =>
      show natBitsAux fuel ((n + 1) / 2) ++ _ = natBitsAux fuel' ((n + 1) / 2) ++ _
      have hlt : (n + 1) / 2 < n + 1 := Nat.div_lt_self (Nat.succ_pos n) (by norm_num)
      rw [ih ((n + 1) / 2) hlt fuel ((n + 1) / 2) (by omega) (le_refl _),
        ih ((n + 1) / 2) hlt fuel' ((n + 1) / 2) (by omega) (le_refl _)]

/-- `np.binary_repr num`: binary digits of `num`, most significant first,
with `0` rendered as the single digit `0`. -/
def binary_repr (num : Nat) : List Nat :=
  if num = 0 then [0] else natBits num

/-- `str.zfill m`: pad a digit list on the left with zeros to length `m`
(no truncation when the list is already at least that long). -/
def zfill (m : Nat) (bs : List Nat) : List Nat :=
  List.replicate (m - bs.length) 0 ++ bs

/-- `_bin_array(num, m)` from the source: `np.binary_repr(num).zfill(m)`
as a list of bits. -/
def _bin_array (num m : Nat) : List Nat :=
  zfill m (binary_repr num)

/-- The numeric value of a most-significant-bit-first digit list. -/
def bitsToNat (bs : List Nat) : Nat :=
  bs.foldl (fun acc b => 2 * acc + b) 0

/-- The two deterministic external collaborators of one run: the perceptual
hash (path to the hash integer of the image stored there) and the operating
system's `os.path.realpath`. -/
structure SimConfig : Type where
  hashOf : String → Nat
  realpath : String → String

/-- `_hash_size * BITS_PER_BYTE` (= `8 * 8`) from the source. -/
def HASH_BITS : Nat := 8 * 8

/-- The `HashedImage` class: the constructor arguments that survive as
observable state (path, hash-function name, bit array). -/
structure HashedImage : Type where
  path : String
  hashFunc : String
  bits : List Nat
deriving DecidableEq, Repr

/-- `HashedImage(path)` as built by `get_similar_images`: default hash
function `phash`, bit array `_bin_array(int(str(hash), 16), 64)`. -/
def mkHashedImage (cfg : SimConfig) (p : String) : HashedImage :=
  { path := p, hashFunc := "phash", bits := _bin_array (cfg.hashOf p) HASH_BITS }

/-- `HashedImage.__eq__`: `False` when the hash functions differ, otherwise
equality of the `realpath`-resolved paths. -/
def hashedEq (rp : String → String) (a b : HashedImage) : Bool :=
  if a.hashFunc = b.hashFunc then decide (rp a.path = rp b.path) else false

/-- Python `dict` insertion: overwrite the value at an existing key in
place, otherwise append the new key at the end. -/
def dictInsert (d : List (String × HashedImage)) (k : String) (v : HashedImage) :
    List (String × HashedImage) :=
  match d with
  | [] => [(k, v)]
  | (k', v') :: rest => if k' = k then (k, v) :: rest else (k', v') :: dictInsert rest k v

/-- Python `dict` lookup (`images[img]`), `none` modelling `KeyError`. -/
def dictLookup (d : List (String × HashedImage)) (k : String) : Option HashedImage :=
  match d with
  | [] => none
  | (k', v) :: rest => if k' = k then some v else dictLookup rest k

/-- Squared Euclidean distance between two coordinate lists (numpy casts the
`int8` bits to floats; over integer coordinates the square of the distance is
this integer). -/
def sqDistZ (xs ys : List Nat) : Int :=
  ((xs.zip ys).map (fun p => ((p.1 : Int) - (p.2 : Int)) ^ 2)).sum

/-- Number of coordinates in which the two lists differ (Hamming distance). -/
def hammingDistL (xs ys : List Nat) : Nat :=
  ((xs.zip ys).filter (fun p => decide (p.1 ≠ p.2))).length

/-- `scipy.spatial.KDTree(data).query_ball_point(q, r)`: the indices of the
data points whose Euclidean distance to `q` is at most `r` — equivalently,
whose squared Euclidean distance is at most `r ^ 2`. -/
def queryBallPoint (data : List (List Nat)) (q : List Nat) (r : Nat) : List Nat :=
  (List.range data.length).filter (fun i => decide (sqDistZ (data.getD i []) q ≤ (r : Int) ^ 2))

/-- `scipy.spatial.KDTree(data)` construction: `ValueError` unless the data
is a non-empty list of equal-length coordinate rows (a 2-d array of shape
`(n, m)`); an empty list has shape `(0,)` and a ragged list is not
rectangular, so both raise `ValueError`. -/
def kdtreeBuild (data : List (List Nat)) : Except SimError Unit :=
  match data with
  | [] => .error .valueError
  | d :: ds => if ds.all (fun x => x.length == d.length) then .ok () else .error .valueError

/-- The result type of `get_similar_images`: the `defaultdict(list)` as an
association list in key-creation order. -/
abbrev ResMap : Type := List (String × List HashedImage)

/-- Net effect of `for id in ...: res[img].append(...)` on one existing key:
the first (and only) entry with that key is extended; a missing key is
appended at the end (`defaultdict` creates it at first access). -/
def resAppend (res : ResMap) (k : String) (ms : List HashedImage) : ResMap :=
  match res with
  | [] => [(k, ms)]
  | (k', ms') :: rest =>
      if k' = k then (k', ms' ++ ms) :: rest else (k', ms') :: resAppend rest k ms

/-- One query's effect on `res`: when no append executes (no surviving
match) the key is never touched, otherwise all surviving matches are
appended in order. -/
def resInsert (res : ResMap) (k : String) (ms : List HashedImage) : ResMap :=
  if ms = [] then res else resAppend res k ms

/-- The matches the inner loop (lines 103-106) appends for one query image
`q`: for each id returned by the radius query, the stored image at that id,
kept only when `images[img] != image_list[id]` (i.e. `hashedEq` is false). -/
def matchesOf (rp : String → String) (imageList : List HashedImage) (q : HashedImage)
    (r : Nat) : List HashedImage :=
  (queryBallPoint (imageList.map HashedImage.bits) q.bits r).filterMap (fun id =>
    match imageList.get? id with
    | some m => if hashedEq rp q m then none else some m
    | none => none)

/-- The body of the query loop (lines 102-106) for one path `img`:
`images[img]` lookup (`KeyError` when absent), radius query, filter,
appends. -/
def simStep (cfg : SimConfig) (images : List (String × HashedImage)) (r : Nat)
    (acc : Except SimError ResMap) (img : String) : Except SimError ResMap :=
  match acc with
  | .error e => .error e
  | .ok res =>
    match dictLookup images img with
    | none => .error .keyError
    | some q => .ok (resInsert res img (matchesOf cfg.realpath (images.map Prod.snd) q r))

/-- The `images` dict after lines 90-96: existing images inserted first,
then (in cross-collection mode) the new images, overwriting equal keys. -/
def builtImages (cfg : SimConfig) (existing : List String)
    (newImgs : Option (List String)) : List (String × HashedImage) :=
  let d1 := existing.foldl (fun d p => dictInsert d p (mkHashedImage cfg p)) []
  match newImgs with
  | none => d1
  | some ns => ns.foldl (fun d p => dictInsert d p (mkHashedImage cfg p)) d1

/-- The paths the query loop iterates over (line 102): the new images when
given, otherwise the existing images. -/
def queryPaths (existing : List String) (newImgs : Option (List String)) : List String :=
  match newImgs with
  | some ns => ns
  | none => existing

/-- `get_similar_images(path_to_existing_images, path_to_new_images,
sensitivity)` (lines 89-107), with the directory listings abstracted as path
lists and exceptions as `Except`. -/
def get_similar_images (cfg : SimConfig) (existing : List String)
    (newImgs : Option (List String)) (sensitivity : Nat) : Except SimError ResMap :=
  let images := builtImages cfg existing newImgs
  let imageList := images.map Prod.snd
  match kdtreeBuild (imageList.map HashedImage.bits) with
  | .error e => .error e
  | .ok _ => (queryPaths existing newImgs).foldl (simStep cfg images sensitivity) (.ok [])

/-- `similar_images_pairs(similar_img_map)` (lines 109-114): the set of
`frozenset((base_image, similar_img.path))` over all entries. -/
def similar_images_pairs (m : ResMap) : Finset (Finset String) :=
  m.foldl (fun acc kv =>
    kv.2.foldl (fun acc2 im => insert ({kv.1, im.path} : Finset String) acc2) acc) ∅

instance exceptDecEq {ε α : Type} [DecidableEq ε] [DecidableEq α] :
    DecidableEq (Except ε α) := fun a b =>
  match a, b with
  | .error x, .error y =>
    if h : x = y then .isTrue (by rw [h]) else .isFalse (fun hc => h (Except.error.inj hc))
  | .error _, .ok _ => .isFalse (fun hc => Except.noConfusion hc)
  | .ok _, .error _ => .isFalse (fun hc => Except.noConfusion hc)
  | .ok x, .ok y =>
    if h : x = y then .isTrue (by rw [h]) else .isFalse (fun hc => h (Except.ok.inj hc))

/-- Concrete two-point index used to instantiate C1. -/
def dataC1 : List (List Nat) := [[0, 1], [1, 1]]

/-- Concrete query point used to instantiate C1. -/
def qC1 : List Nat := [1, 1]

/-- Concrete run configuration: paths hash to 0, except path `b`, which
hashes to 1 (Hamming distance 1 to the others); `realpath` is the
identity. -/
def cfgW : SimConfig := ⟨fun p => if p = "b" then 1 else 0, id⟩

/-- The match map `get_similar_images cfgW ["a", "b"] none` computes at any
sensitivity of at least 1. -/
def resW : ResMap := [("a", [mkHashedImage cfgW "b"]), ("b", [mkHashedImage cfgW "a"])]

/-- Concrete run configuration whose hash values straddle 64 bits: path `b`
hashes to `2 ^ 64` (65 bits), every other path to 0 (64 bits). -/
def cfgMixed : SimConfig := ⟨fun p => if p = "b" then 2 ^ 64 else 0, id⟩

/-! Basic facts about the bit conversion. -/

theorem natBits_succ (n : Nat) :
    natBits (n + 1) = natBits ((n + 1) / 2) ++ [(n + 1) % 2] := by
  show natBitsAux n ((n + 1) / 2) ++ _ = natBitsAux ((n + 1) / 2) ((n + 1) / 2) ++ _
  rw [natBitsAux_fuel ((n + 1) / 2) n ((n + 1) / 2) (by omega) (le_refl _)]

theorem natBits_bits_le_one (n : Nat) : ∀ b ∈ natBits n, b ≤ 1 := by
  induction n using Nat.strong_induction_on with
  | _ n ih =>
    match n with
    | 0 => intro b hb; rw [natBits_zero] at hb; simp at hb
    | n + 1 =>
      intro b hb
      rw [natBits_succ] at hb
      rcases List.mem_append.mp hb with h | h
      · exact ih ((n + 1) / 2) (Nat.div_lt_self (Nat.succ_pos n) (by norm_num)) b h
      · simp at h
        subst h
        exact Nat.le_of_lt_succ (Nat.mod_lt _ (by norm_num))

theorem natBits_length_le {n k : Nat} (h : n < 2 ^ k) : (natBits n).length ≤ k := by
  induction n using Nat.strong_induction_on generalizing k with
  | _ n ih =>
    match n with
    | 0 => rw [natBits_zero]; simp
    | n + 1 =>
      have hk : 1 ≤ k := by
        by_contra hc
        push_neg at hc
        interval_cases k
        omega
      rw [natBits_succ]
      have hdiv : (n + 1) / 2 < 2 ^ (k - 1) := by
        have h2 : 2 ^ (k - 1) * 2 = 2 ^ k := by
          rw [← pow_succ]
          congr 1
          omega
        rw [Nat.div_lt_iff_lt_mul (by norm_num)]
        omega
      have := ih ((n + 1) / 2) (Nat.div_lt_self (Nat.succ_pos n) (by norm_num)) hdiv
      simp only [List.length_append, List.length_cons, List.length_nil]
      omega

theorem bitsToNat_append_one (bs : List Nat) (b : Nat) :
    bitsToNat (bs ++ [b]) = 2 * bitsToNat bs + b := by
  simp [bitsToNat, List.foldl_append]

theorem bitsToNat_natBits (n : Nat) : bitsToNat (natBits n) = n := by
  induction n using Nat.strong_induction_on with
  | _ n ih =>
    match n with
    | 0 => rw [natBits_zero]; simp [bitsToNat]
    | n + 1 =>
      rw [natBits_succ, bitsToNat_append_one,
        ih ((n + 1) / 2) (Nat.div_lt_self (Nat.succ_pos n) (by norm_num))]
      omega

theorem bitsToNat_replicate_zero_append (k : Nat) (bs : List Nat) :
    bitsToNat (List.replicate k 0 ++ bs) = bitsToNat bs := by
  induction k with
  | zero => simp
  | succ k ih =>
    rw [List.replicate_succ, List.cons_append]
    show List.foldl (fun acc b => 2 * acc + b) (2 * 0 + 0) _ = _
    simpa [bitsToNat] using ih

theorem zfill_length {m : Nat} {bs : List Nat} (h : bs.length ≤ m) :
    (zfill m bs).length = m := by
  simp [zfill]
  omega

theorem binary_repr_length_le {num m : Nat} (hm : 1 ≤ m) (h : num < 2 ^ m) :
    (binary_repr num).length ≤ m := by
  unfold binary_repr
  split
  · simpa using hm
  · exact natBits_length_le h

theorem binary_repr_bits_le_one (num : Nat) : ∀ b ∈ binary_repr num, b ≤ 1 := by
  unfold binary_repr
  split
  · simp
  · exact natBits_bits_le_one num

theorem bitsToNat_binary_repr (num : Nat) : bitsToNat (binary_repr num) = num := by
  unfold binary_repr
  split
  · simp [bitsToNat]
    omega
  · exact bitsToNat_natBits num

theorem _bin_array_bits_le_one (num m : Nat) : ∀ b ∈ _bin_array num m, b ≤ 1 := by
  intro b hb
  rcases List.mem_append.mp hb with h | h
  · simp [List.eq_of_mem_replicate h]
  · exact binary_repr_bits_le_one num b h

theorem _bin_array_length {num m : Nat} (hm : 1 ≤ m) (h : num < 2 ^ m) :
    (_bin_array num m).length = m :=
  zfill_length (binary_repr_length_le hm h)

theorem bitsToNat_bin_array (num m : Nat) : bitsToNat (_bin_array num m) = num := by
  rw [_bin_array, zfill, bitsToNat_replicate_zero_append, bitsToNat_binary_repr]

/-! Distance facts: squared Euclidean distance on 0/1 coordinates is the
Hamming distance. -/

theorem sqDistZ_nil_left (ys : List Nat) : sqDistZ [] ys = 0 := by
  simp [sqDistZ]

theorem sqDistZ_nil_right (xs : List Nat) : sqDistZ xs [] = 0 := by
  simp [sqDistZ]

theorem sqDistZ_cons (x y : Nat) (xs ys : List Nat) :
    sqDistZ (x :: xs) (y :: ys) = ((x : Int) - (y : Int)) ^ 2 + sqDistZ xs ys := by
  simp [sqDistZ]

theorem hammingDistL_cons (x y : Nat) (xs ys : List Nat) :
    hammingDistL (x :: xs) (y :: ys) =
      (if x = y then 0 else 1) + hammingDistL xs ys := by
  by_cases h : x = y
  · simp [hammingDistL, h]
  · simp [hammingDistL, h]
    omega

theorem sqDistZ_nonneg (xs ys : List Nat) : 0 ≤ sqDistZ xs ys := by
  apply List.sum_nonneg
  intro a ha
  rcases List.mem_map.mp ha with ⟨p, _, hp⟩
  rw [← hp]
  exact sq_nonneg _

theorem sq_diff_bit {x y : Nat} (hx : x ≤ 1) (hy : y ≤ 1) :
    ((x : Int) - (y : Int)) ^ 2 = if x = y then 0 else 1 := by
  interval_cases x <;> interval_cases y <;> simp

theorem sqDistZ_eq_hamming {xs ys : List Nat}
    (hx : ∀ b ∈ xs, b ≤ 1) (hy : ∀ b ∈ ys, b ≤ 1) :
    sqDistZ xs ys = (hammingDistL xs ys : Int) := by
  induction xs generalizing ys with
  | nil => simp [sqDistZ_nil_left, hammingDistL]
  | cons x xs ih =>
    cases ys with
    | nil => simp [sqDistZ_nil_right, hammingDistL]
    | cons y ys =>
      rw [sqDistZ_cons, hammingDistL_cons,
        sq_diff_bit (hx x (by simp)) (hy y (by simp)),
        ih (fun b hb => hx b (by simp [hb])) (fun b hb => hy b (by simp [hb]))]
      by_cases h : x = y <;> simp [h]

theorem sqDistZ_le_zero_iff {xs ys : List Nat} (hlen : xs.length = ys.length) :
    sqDistZ xs ys ≤ 0 ↔ xs = ys := by
  induction xs generalizing ys with
  | nil =>
    cases ys with
    | nil => simp [sqDistZ_nil_left]
    | cons y ys => simp at hlen
  | cons x xs ih =>
    cases ys with
    | nil => simp at hlen
    | cons y ys =>
      rw [sqDistZ_cons]
      have h1 : 0 ≤ ((x : Int) - (y : Int)) ^ 2 := sq_nonneg _
      have h2 : 0 ≤ sqDistZ xs ys := sqDistZ_nonneg xs ys
      constructor
      · intro h
        have hx : ((x : Int) - (y : Int)) ^ 2 = 0 := by omega
        have hxy : x = y := by
          have : (x : Int) = (y : Int) := by
            have := pow_eq_zero_iff (n := 2) (by norm_num) |>.mp hx
            omega
          exact_mod_cast this
        have : xs = ys := (ih (by simpa using hlen)).mp (by omega)
        simp [hxy, this]
      · intro h
        have hxy : x = y := by injection h
        have hys : xs = ys := by injection h
        subst hxy
        subst hys
        have h3 : sqDistZ xs xs ≤ 0 := (ih rfl).mpr rfl
        have h4 : ((x : Int) - (x : Int)) ^ 2 = 0 := by ring
        omega

theorem mem_queryBallPoint {data : List (List Nat)} {q : List Nat} {r i : Nat} :
    i ∈ queryBallPoint data q r ↔
      i < data.length ∧ sqDistZ (data.getD i []) q ≤ (r : Int) ^ 2 := by
  simp [queryBallPoint, List.mem_filter, List.mem_range]

theorem getD_mem_of_lt {α : Type} {l : List α} {i : Nat} {d : α} (h : i < l.length) :
    l.getD i d ∈ l := by
  rw [List.getD_eq_getElem l d h]
  exact List.getElem_mem h

theorem sqrt_cast_le_iff {x : Int} {r : Nat} (_hx : 0 ≤ x) :
    (Real.sqrt (x : ℝ) ≤ (r : ℝ)) ↔ x ≤ (r : Int) ^ 2 := by
  rw [Real.sqrt_le_iff]
  constructor
  · rintro ⟨-, h⟩
    exact_mod_cast h
  · intro h
    constructor
    · positivity
    · exact_mod_cast h

/-- C1: for every built index and every query point, the radius query
returns exactly the indices of the stored points whose Euclidean distance
over the 0/1 coordinate vectors to the query is at most the sensitivity
`r`; equivalently, a stored point is returned iff the square root of the
number of differing bits is at most `r` (the threshold bounds the square
root of the Hamming distance, not the Hamming distance itself). -/
theorem query_ball_point_euclidean_radius (data : List (List Nat)) (q : List Nat) (r : Nat)
    (hdata : ∀ xs ∈ data, ∀ b ∈ xs, b ≤ 1) (hq : ∀ b ∈ q, b ≤ 1) (i : Nat) :
    (i ∈ queryBallPoint data q r ↔
      i < data.length ∧ Real.sqrt (sqDistZ (data.getD i []) q : ℝ) ≤ (r : ℝ))
    ∧
    (i ∈ queryBallPoint data q r ↔
      i < data.length ∧ Real.sqrt (hammingDistL (data.getD i []) q : ℝ) ≤ (r : ℝ)) := by
  have hsq : ∀ j : Nat, j < data.length →
      sqDistZ (data.getD j []) q = (hammingDistL (data.getD j []) q : Int) := by
    intro j hj
    exact sqDistZ_eq_hamming (hdata _ (getD_mem_of_lt hj)) hq
  constructor
  · rw [mem_queryBallPoint]
    constructor
    · rintro ⟨hi, hd⟩
      exact ⟨hi, (sqrt_cast_le_iff (sqDistZ_nonneg _ _)).mpr hd⟩
    · rintro ⟨hi, hd⟩
      exact ⟨hi, (sqrt_cast_le_iff (sqDistZ_nonneg _ _)).mp hd⟩
  · rw [mem_queryBallPoint]
    constructor
    · rintro ⟨hi, hd⟩
      refine ⟨hi, ?_⟩
      rw [hsq i hi] at hd
      have := (sqrt_cast_le_iff (x := (hammingDistL (data.getD i []) q : Int))
        (by positivity)).mpr hd
      simpa using this
    · rintro ⟨hi, hd⟩
      refine ⟨hi, ?_⟩
      rw [hsq i hi]
      have : Real.sqrt ((hammingDistL (data.getD i []) q : Int) : ℝ) ≤ (r : ℝ) := by
        simpa using hd
      exact (sqrt_cast_le_iff (by positivity)).mp this

/-- Witness instantiating C1 on a concrete index, query and radius. -/
theorem query_ball_point_euclidean_radius_witness :
    (0 ∈ queryBallPoint dataC1 qC1 1 ↔
      0 < dataC1.length ∧ Real.sqrt (sqDistZ (dataC1.getD 0 []) qC1 : ℝ) ≤ ((1 : Nat) : ℝ))
    ∧
    (0 ∈ queryBallPoint dataC1 qC1 1 ↔
      0 < dataC1.length ∧
        Real.sqrt (hammingDistL (dataC1.getD 0 []) qC1 : ℝ) ≤ ((1 : Nat) : ℝ)) :=
  query_ball_point_euclidean_radius dataC1 qC1 1 (by decide) (by decide) 0

/-- C5: for every hash value representable in `8 * 8 = 64` bits
(`_hash_size * BITS_PER_BYTE`), the bit-vector conversion yields a sequence
of exactly 64 bits (each bit 0 or 1), most-significant-bit first with
leading zeros preserved, whose value as a binary number read
most-significant-bit first equals the original value. -/
theorem bin_array_exact_width (num : Nat) (h : num < 2 ^ (8 * 8)) :
    (_bin_array num (8 * 8)).length = 8 * 8 ∧
    bitsToNat (_bin_array num (8 * 8)) = num ∧
    ∀ b ∈ _bin_array num (8 * 8), b ≤ 1 :=
  ⟨_bin_array_length (by norm_num) h, bitsToNat_bin_array num (8 * 8),
    _bin_array_bits_le_one num (8 * 8)⟩

/-- Witness instantiating C5 at a concrete hash value. -/
theorem bin_array_exact_width_witness :
    (5 : Nat) < 2 ^ (8 * 8) ∧
    ((_bin_array 5 (8 * 8)).length = 8 * 8 ∧
      bitsToNat (_bin_array 5 (8 * 8)) = 5 ∧
      ∀ b ∈ _bin_array 5 (8 * 8), b ≤ 1) :=
  ⟨by norm_num, bin_array_exact_width 5 (by norm_num)⟩

/-! Dictionary lemmas: the `images` dict of `get_similar_images`. -/

theorem dictLookup_dictInsert (d : List (String × HashedImage)) (k p : String)
    (v : HashedImage) :
    dictLookup (dictInsert d k v) p = if k = p then some v else dictLookup d p := by
  induction d with
  | nil =>
    simp [dictInsert, dictLookup]
  | cons kv rest ih =>
    obtain ⟨k', v'⟩ := kv
    by_cases h1 : k' = k
    · subst h1
      by_cases h2 : k' = p <;> simp [dictInsert, dictLookup, h2]
    · by_cases h2 : k' = p
      · subst h2
        have : ¬ k = k' := fun hc => h1 hc.symm
        simp [dictInsert, dictLookup, h1, this]
      · simp [dictInsert, dictLookup, h1, h2, ih]

theorem dictInsert_mem {d : List (String × HashedImage)} {k : String} {v : HashedImage}
    {kv : String × HashedImage} (h : kv ∈ dictInsert d k v) : kv ∈ d ∨ kv = (k, v) := by
  induction d with
  | nil => simp [dictInsert] at h; right; exact h
  | cons kv' rest ih =>
    obtain ⟨k', v'⟩ := kv'
    by_cases h1 : k' = k
    · subst h1
      simp only [dictInsert, if_pos rfl] at h
      rcases List.mem_cons.mp h with h2 | h2
      · right; exact h2
      · left; exact List.mem_cons_of_mem _ h2
    · simp only [dictInsert, if_neg h1] at h
      rcases List.mem_cons.mp h with h2 | h2
      · left; exact h2 ▸ List.mem_cons_self _ _
      · rcases ih h2 with h3 | h3
        · left; exact List.mem_cons_of_mem _ h3
        · right; exact h3

theorem dictLookup_mem {d : List (String × HashedImage)} {p : String} {v : HashedImage}
    (h : dictLookup d p = some v) : (p, v) ∈ d := by
  induction d with
  | nil => simp [dictLookup] at h
  | cons kv rest ih =>
    obtain ⟨k', v'⟩ := kv
    by_cases h1 : k' = p
    · subst h1
      simp only [dictLookup, if_pos rfl] at h
      cases h
      exact List.mem_cons_self _ _
    · simp only [dictLookup, if_neg h1] at h
      exact List.mem_cons_of_mem _ (ih h)

theorem dictLookup_foldl_insert (cfg : SimConfig) (ps : List String)
    (d : List (String × HashedImage)) (p : String) :
    dictLookup (ps.foldl (fun d q => dictInsert d q (mkHashedImage cfg q)) d) p =
      if p ∈ ps then some (mkHashedImage cfg p) else dictLookup d p := by
  induction ps generalizing d with
  | nil => simp
  | cons q qs ih =>
    simp only [List.foldl_cons]
    rw [ih]
    by_cases hq : p ∈ qs
    · simp [hq]
    · by_cases hpq : p = q
      · subst hpq
        simp [hq, dictLookup_dictInsert]
      · have : ¬ q = p := fun hc => hpq hc.symm
        simp [hq, hpq, dictLookup_dictInsert, this]

theorem foldl_insert_entry {cfg : SimConfig} {ps : List String}
    {d : List (String × HashedImage)} {kv : String × HashedImage}
    (h : kv ∈ ps.foldl (fun d q => dictInsert d q (mkHashedImage cfg q)) d) :
    kv ∈ d ∨ (kv.1 ∈ ps ∧ kv.2 = mkHashedImage cfg kv.1) := by
  induction ps generalizing d with
  | nil => left; simpa using h
  | cons q qs ih =>
    simp only [List.foldl_cons] at h
    rcases ih h with h' | h'
    · rcases dictInsert_mem h' with h'' | h''
      · exact Or.inl h''
      · subst h''
        exact Or.inr ⟨List.mem_cons_self _ _, rfl⟩
    · exact Or.inr ⟨List.mem_cons_of_mem _ h'.1, h'.2⟩

theorem builtImages_entry {cfg : SimConfig} {existing : List String}
    {newImgs : Option (List String)} {kv : String × HashedImage}
    (h : kv ∈ builtImages cfg existing newImgs) :
    kv.2 = mkHashedImage cfg kv.1 ∧
      (kv.1 ∈ existing ∨ ∃ ns, newImgs = some ns ∧ kv.1 ∈ ns) := by
  unfold builtImages at h
  cases hn : newImgs with
  | none =>
    rw [hn] at h
    simp only at h
    rcases foldl_insert_entry h with h' | h'
    · simp at h'
    · exact ⟨h'.2, Or.inl h'.1⟩
  | some ns =>
    rw [hn] at h
    simp only at h
    rcases foldl_insert_entry h with h' | h'
    · rcases foldl_insert_entry h' with h'' | h''
      · simp at h''
      · exact ⟨h''.2, Or.inl h''.1⟩
    · exact ⟨h'.2, Or.inr ⟨ns, rfl, h'.1⟩⟩

theorem dictInsert_keys (d : List (String × HashedImage)) (k : String) (v : HashedImage) :
    (dictInsert d k v).map Prod.fst =
      if k ∈ d.map Prod.fst then d.map Prod.fst else d.map Prod.fst ++ [k] := by
  induction d with
  | nil => simp [dictInsert]
  | cons kv rest ih =>
    obtain ⟨k', v'⟩ := kv
    by_cases h1 : k' = k
    · subst h1
      simp [dictInsert]
    · have h1' : ¬ k = k' := fun hc => h1 hc.symm
      by_cases h2 : k ∈ rest.map Prod.fst
      · simp [dictInsert, h1, ih, h2, h1']
      · simp [dictInsert, h1, ih, h2, h1']

theorem dictInsert_keys_nodup {d : List (String × HashedImage)} {k : String}
    {v : HashedImage} (h : (d.map Prod.fst).Nodup) :
    ((dictInsert d k v).map Prod.fst).Nodup := by
  rw [dictInsert_keys]
  split
  · exact h
  · next hk =>
    rw [List.nodup_append]
    exact ⟨h, List.nodup_singleton _, by simpa [List.disjoint_singleton] using hk⟩

theorem foldl_insert_keys_nodup (cfg : SimConfig) (ps : List String)
    (d : List (String × HashedImage)) (h : (d.map Prod.fst).Nodup) :
    ((ps.foldl (fun d q => dictInsert d q (mkHashedImage cfg q)) d).map Prod.fst).Nodup := by
  induction ps generalizing d with
  | nil => simpa using h
  | cons q qs ih => exact ih _ (dictInsert_keys_nodup h)

theorem builtImages_keys_nodup (cfg : SimConfig) (existing : List String)
    (newImgs : Option (List String)) :
    ((builtImages cfg existing newImgs).map Prod.fst).Nodup := by
  unfold builtImages
  cases newImgs with
  | none => exact foldl_insert_keys_nodup cfg existing [] (by simp)
  | some ns => exact foldl_insert_keys_nodup cfg ns _ (foldl_insert_keys_nodup cfg existing [] (by simp))

theorem filter_key_length (d : List (String × HashedImage)) (p : String) :
    (d.filter (fun kv => kv.1 == p)).length = (d.map Prod.fst).count p := by
  induction d with
  | nil => simp
  | cons kv rest ih =>
    by_cases h : kv.1 = p
    · simp [List.filter_cons, List.count_cons, h, ih]
    · simp [List.filter_cons, List.count_cons, h, ih]

/-- C6: in cross-collection mode, a path present both among the existing
and among the new images has exactly one entry in the images store the
index is built from — the later insertion overwrote the earlier one — and
that entry is the fingerprint of that path. -/
theorem cross_mode_single_store_entry (cfg : SimConfig) (existing news : List String)
    (p : String) (_h1 : p ∈ existing) (h2 : p ∈ news) :
    ((builtImages cfg existing (some news)).filter (fun kv => kv.1 == p)).length = 1 ∧
    dictLookup (builtImages cfg existing (some news)) p = some (mkHashedImage cfg p) := by
  have hlook : dictLookup (builtImages cfg existing (some news)) p =
      some (mkHashedImage cfg p) := by
    unfold builtImages
    simp only
    rw [dictLookup_foldl_insert]
    simp [h2]
  refine ⟨?_, hlook⟩
  have hmem : (p, mkHashedImage cfg p) ∈ builtImages cfg existing (some news) :=
    dictLookup_mem hlook
  have hkey : p ∈ (builtImages cfg existing (some news)).map Prod.fst := by
    exact List.mem_map_of_mem Prod.fst hmem
  rw [filter_key_length]
  exact List.count_eq_one_of_mem (builtImages_keys_nodup cfg existing (some news)) hkey

/-- Witness instantiating C6 on a concrete overlapping pair of path lists. -/
theorem cross_mode_single_store_entry_witness :
    "a" ∈ ["a", "b"] ∧ "a" ∈ ["a"] ∧
    (((builtImages ⟨fun _ => 0, id⟩ ["a", "b"] (some ["a"])).filter
        (fun kv => kv.1 == "a")).length = 1 ∧
      dictLookup (builtImages ⟨fun _ => 0, id⟩ ["a", "b"] (some ["a"])) "a" =
        some (mkHashedImage ⟨fun _ => 0, id⟩ "a")) :=
  ⟨by decide, by decide,
    cross_mode_single_store_entry ⟨fun _ => 0, id⟩ ["a", "b"] ["a"] "a"
      (by decide) (by decide)⟩

/-! Result-map lemmas: the `defaultdict(list)` built by the query loop. -/

/-- A match `m` is listed under key `k` somewhere in the result map. -/
def listed (res : ResMap) (k : String) (m : HashedImage) : Prop :=
  ∃ ms, (k, ms) ∈ res ∧ m ∈ ms

theorem listed_nil {k : String} {m : HashedImage} : ¬ listed [] k m := by
  rintro ⟨ms, hmem, -⟩
  simp at hmem

theorem listed_cons {a : String} {bs : List HashedImage} {rest : ResMap} {k : String}
    {m : HashedImage} :
    listed ((a, bs) :: rest) k m ↔ (k = a ∧ m ∈ bs) ∨ listed rest k m := by
  unfold listed
  constructor
  · rintro ⟨ms, hmem, hm⟩
    rcases List.mem_cons.mp hmem with h | h
    · left
      have h1 : k = a := congrArg Prod.fst h
      have h2 : ms = bs := congrArg Prod.snd h
      exact ⟨h1, h2 ▸ hm⟩
    · right
      exact ⟨ms, h, hm⟩
  · rintro (⟨rfl, hm⟩ | ⟨ms, hmem, hm⟩)
    · exact ⟨bs, List.mem_cons_self _ _, hm⟩
    · exact ⟨ms, List.mem_cons_of_mem _ hmem, hm⟩

theorem listed_resAppend (res : ResMap) (k k' : String) (ms : List HashedImage)
    (m : HashedImage) :
    listed (resAppend res k ms) k' m ↔ listed res k' m ∨ (k' = k ∧ m ∈ ms) := by
  induction res with
  | nil =>
    unfold resAppend
    rw [listed_cons]
    constructor
    · rintro (⟨rfl, hm⟩ | h)
      · exact Or.inr ⟨rfl, hm⟩
      · exact absurd h listed_nil
    · rintro (h | ⟨rfl, hm⟩)
      · exact absurd h listed_nil
      · exact Or.inl ⟨rfl, hm⟩
  | cons kv rest ih =>
    obtain ⟨a, bs⟩ := kv
    by_cases h1 : a = k
    · subst h1
      unfold resAppend
      rw [if_pos rfl, listed_cons, listed_cons]
      constructor
      · rintro (⟨rfl, hm⟩ | h)
        · rcases List.mem_append.mp hm with h' | h'
          · exact Or.inl (Or.inl ⟨rfl, h'⟩)
          · exact Or.inr ⟨rfl, h'⟩
        · exact Or.inl (Or.inr h)
      · rintro ((⟨rfl, hm⟩ | h) | ⟨rfl, hm⟩)
        · exact Or.inl ⟨rfl, List.mem_append.mpr (Or.inl hm)⟩
        · exact Or.inr h
        · exact Or.inl ⟨rfl, List.mem_append.mpr (Or.inr hm)⟩
    · unfold resAppend
      rw [if_neg h1, listed_cons, listed_cons, ih]
      tauto

theorem listed_resInsert (res : ResMap) (k k' : String) (ms : List HashedImage)
    (m : HashedImage) :
    listed (resInsert res k ms) k' m ↔ listed res k' m ∨ (k' = k ∧ m ∈ ms) := by
  unfold resInsert
  split
  · next h =>
    subst h
    simp
  · exact listed_resAppend res k k' ms m

theorem resAppend_entry_nonempty {res : ResMap} {k : String} {ms : List HashedImage}
    (hres : ∀ kv ∈ res, kv.2 ≠ ([] : List HashedImage)) (hms : ms ≠ []) :
    ∀ kv ∈ resAppend res k ms, kv.2 ≠ ([] : List HashedImage) := by
  induction res with
  | nil =>
    intro kv hkv
    unfold resAppend at hkv
    rcases List.mem_cons.mp hkv with h | h
    · subst h
      simpa using hms
    · simp at h
  | cons kv0 rest ih =>
    obtain ⟨a, bs⟩ := kv0
    intro kv hkv
    unfold resAppend at hkv
    by_cases h1 : a = k
    · rw [if_pos h1] at hkv
      rcases List.mem_cons.mp hkv with h | h
      · subst h
        have : bs ≠ [] := hres (a, bs) (List.mem_cons_self _ _)
        simp only
        intro hc
        rcases List.append_eq_nil.mp hc with ⟨hbs, -⟩
        exact this hbs
      · exact hres kv (List.mem_cons_of_mem _ h)
    · rw [if_neg h1] at hkv
      rcases List.mem_cons.mp hkv with h | h
      · subst h
        exact hres (a, bs) (List.mem_cons_self _ _)
      · exact ih (fun kv' hkv' => hres kv' (List.mem_cons_of_mem _ hkv')) kv h

theorem resInsert_entry_nonempty {res : ResMap} {k : String} {ms : List HashedImage}
    (hres : ∀ kv ∈ res, kv.2 ≠ ([] : List HashedImage)) :
    ∀ kv ∈ resInsert res k ms, kv.2 ≠ ([] : List HashedImage) := by
  unfold resInsert
  split
  · exact hres
  · next h => exact resAppend_entry_nonempty hres h

/-! Lemmas about the per-query match computation and the KDTree model. -/

theorem hashedEq_self (rp : String → String) (a : HashedImage) :
    hashedEq rp a a = true := by
  simp [hashedEq]

theorem queryBallPoint_mono {data : List (List Nat)} {q : List Nat} {r r' : Nat}
    (h : r ≤ r') {i : Nat} (hi : i ∈ queryBallPoint data q r) :
    i ∈ queryBallPoint data q r' := by
  rw [mem_queryBallPoint] at hi ⊢
  refine ⟨hi.1, le_trans hi.2 ?_⟩
  have hr : (r : Int) ≤ (r' : Int) := by exact_mod_cast h
  exact pow_le_pow_left₀ (by positivity) hr 2

theorem matchesOf_mono {rp : String → String} {L : List HashedImage} {q : HashedImage}
    {r r' : Nat} (h : r ≤ r') :
    ∀ m ∈ matchesOf rp L q r, m ∈ matchesOf rp L q r' := by
  intro m hm
  unfold matchesOf at hm ⊢
  rw [List.mem_filterMap] at hm ⊢
  obtain ⟨i, hi, hf⟩ := hm
  exact ⟨i, queryBallPoint_mono h hi, hf⟩

theorem matchesOf_mem_spec {rp : String → String} {L : List HashedImage} {q : HashedImage}
    {r : Nat} {m : HashedImage} (hm : m ∈ matchesOf rp L q r) :
    hashedEq rp q m = false ∧ m ∈ L ∧ sqDistZ m.bits q.bits ≤ (r : Int) ^ 2 := by
  unfold matchesOf at hm
  rw [List.mem_filterMap] at hm
  obtain ⟨i, hi, hf⟩ := hm
  rw [mem_queryBallPoint] at hi
  cases hget : L.get? i with
  | none =>
    rw [hget] at hf
    simp at hf
  | some m' =>
    rw [hget] at hf
    by_cases he : hashedEq rp q m' = true
    · simp [he] at hf
    · have he' : hashedEq rp q m' = false := by simpa using he
      simp [he'] at hf
      subst hf
      have hmem : m' ∈ L := List.get?_mem hget
      have hlen : i < L.length := (List.get?_eq_some.mp hget).1
      have hgetD : (L.map HashedImage.bits).getD i [] = m'.bits := by
        rw [List.getD_eq_getElem _ _ (by simpa using hlen), List.getElem_map]
        have : L.get? i = some (L.get ⟨i, hlen⟩) := List.get?_eq_get hlen
        rw [hget] at this
        have hm' : L.get ⟨i, hlen⟩ = m' := by
          injection this.symm
        rw [← hm', List.get_eq_getElem]
      refine ⟨he', hmem, ?_⟩
      have := hi.2
      rwa [hgetD] at this

theorem kdtreeBuild_ok_lengths {data : List (List Nat)} (h : kdtreeBuild data = .ok ()) :
    data ≠ [] ∧ ∀ x ∈ data, ∀ y ∈ data, x.length = y.length := by
  cases data with
  | nil => simp [kdtreeBuild] at h
  | cons d ds =>
    refine ⟨by simp, ?_⟩
    simp only [kdtreeBuild] at h
    by_cases hall : ds.all (fun x => x.length == d.length)
    · have hall' := List.all_eq_true.mp hall
      intro x hx y hy
      have hx' : x.length = d.length := by
        rcases List.mem_cons.mp hx with rfl | hx'
        · rfl
        · simpa using hall' x hx'
      have hy' : y.length = d.length := by
        rcases List.mem_cons.mp hy with rfl | hy'
        · rfl
        · simpa using hall' y hy'
      rw [hx', hy']
    · rw [if_neg hall] at h
      simp at h

theorem kdtreeBuild_ragged {data : List (List Nat)} {x y : List Nat}
    (hx : x ∈ data) (hy : y ∈ data) (hne : x.length ≠ y.length) :
    kdtreeBuild data = .error .valueError := by
  cases data with
  | nil => simp at hx
  | cons d ds =>
    simp only [kdtreeBuild]
    rw [if_neg]
    intro hall
    have hall' := List.all_eq_true.mp hall
    have hx' : x.length = d.length := by
      rcases List.mem_cons.mp hx with rfl | hx'
      · rfl
      · simpa using hall' x hx'
    have hy' : y.length = d.length := by
      rcases List.mem_cons.mp hy with rfl | hy'
      · rfl
      · simpa using hall' y hy'
    exact hne (hx'.trans hy'.symm)

/-! The main characterization of a successful `get_similar_images` run. -/

theorem queryPaths_lookup (cfg : SimConfig) (existing : List String)
    (newImgs : Option (List String)) :
    ∀ p ∈ queryPaths existing newImgs,
      dictLookup (builtImages cfg existing newImgs) p = some (mkHashedImage cfg p) := by
  intro p hp
  unfold queryPaths at hp
  unfold builtImages
  cases newImgs with
  | none =>
    simp only at hp ⊢
    rw [dictLookup_foldl_insert]
    simp [hp]
  | some ns =>
    simp only at hp ⊢
    rw [dictLookup_foldl_insert]
    simp [hp]

theorem existing_lookup (cfg : SimConfig) (existing : List String)
    (newImgs : Option (List String)) (p : String) (hp : p ∈ existing) :
    dictLookup (builtImages cfg existing newImgs) p = some (mkHashedImage cfg p) := by
  unfold builtImages
  cases newImgs with
  | none =>
    simp only
    rw [dictLookup_foldl_insert]
    simp [hp]
  | some ns =>
    simp only
    rw [dictLookup_foldl_insert]
    by_cases h : p ∈ ns
    · simp [h]
    · rw [if_neg h, dictLookup_foldl_insert]
      simp [hp]

theorem store_lookup (cfg : SimConfig) (existing : List String)
    (newImgs : Option (List String)) (p : String)
    (hp : p ∈ existing ∨ ∃ ns, newImgs = some ns ∧ p ∈ ns) :
    dictLookup (builtImages cfg existing newImgs) p = some (mkHashedImage cfg p) := by
  rcases hp with hp | ⟨ns, rfl, hp⟩
  · exact existing_lookup cfg existing newImgs p hp
  · unfold builtImages
    simp only
    rw [dictLookup_foldl_insert]
    simp [hp]

theorem foldl_simStep_spec (cfg : SimConfig) (images : List (String × HashedImage))
    (r : Nat) (qs : List String)
    (hlk : ∀ p ∈ qs, dictLookup images p = some (mkHashedImage cfg p)) (res₀ : ResMap)
    (h₀ : ∀ kv ∈ res₀, kv.2 ≠ ([] : List HashedImage)) :
    ∃ res, qs.foldl (simStep cfg images r) (Except.ok res₀) = .ok res ∧
      (∀ kv ∈ res, kv.2 ≠ ([] : List HashedImage)) ∧
      (∀ k m, listed res k m ↔ listed res₀ k m ∨
        (k ∈ qs ∧ m ∈ matchesOf cfg.realpath (images.map Prod.snd)
          (mkHashedImage cfg k) r)) := by
  induction qs generalizing res₀ with
  | nil => exact ⟨res₀, rfl, h₀, by simp⟩
  | cons q qs ih =>
    have hq := hlk q (List.mem_cons_self _ _)
    have hstep : simStep cfg images r (Except.ok res₀) q =
        .ok (resInsert res₀ q
          (matchesOf cfg.realpath (images.map Prod.snd) (mkHashedImage cfg q) r)) := by
      simp [simStep, hq]
    rw [List.foldl_cons, hstep]
    obtain ⟨res, hfold, hne, hiff⟩ :=
      ih (fun p hp => hlk p (List.mem_cons_of_mem _ hp)) _ (resInsert_entry_nonempty h₀)
    refine ⟨res, hfold, hne, ?_⟩
    intro k m
    rw [hiff k m, listed_resInsert]
    constructor
    · rintro ((h | ⟨rfl, hm⟩) | ⟨hk, hm⟩)
      · exact Or.inl h
      · exact Or.inr ⟨List.mem_cons_self _ _, hm⟩
      · exact Or.inr ⟨List.mem_cons_of_mem _ hk, hm⟩
    · rintro (h | ⟨hk, hm⟩)
      · exact Or.inl (Or.inl h)
      · rcases List.mem_cons.mp hk with rfl | hk'
        · exact Or.inl (Or.inr ⟨rfl, hm⟩)
        · exact Or.inr ⟨hk', hm⟩

theorem get_similar_images_ok_spec {cfg : SimConfig} {existing : List String}
    {newImgs : Option (List String)} {r : Nat} {res : ResMap}
    (h : get_similar_images cfg existing newImgs r = .ok res) :
    (∀ kv ∈ res, kv.2 ≠ ([] : List HashedImage)) ∧
    (∀ k m, listed res k m ↔ k ∈ queryPaths existing newImgs ∧
      m ∈ matchesOf cfg.realpath ((builtImages cfg existing newImgs).map Prod.snd)
        (mkHashedImage cfg k) r) ∧
    kdtreeBuild (((builtImages cfg existing newImgs).map Prod.snd).map
      HashedImage.bits) = .ok () := by
  unfold get_similar_images at h
  simp only at h
  cases hk : kdtreeBuild (((builtImages cfg existing newImgs).map Prod.snd).map
      HashedImage.bits) with
  | error e =>
    rw [hk] at h
    simp at h
  | ok u =>
    rw [hk] at h
    simp only at h
    obtain ⟨res', hfold, hne, hiff⟩ :=
      foldl_simStep_spec cfg (builtImages cfg existing newImgs) r
        (queryPaths existing newImgs) (queryPaths_lookup cfg existing newImgs) []
        (by simp)
    rw [hfold] at h
    have hres : res' = res := by injection h
    subst hres
    refine ⟨hne, ?_, by cases u; rfl⟩
    intro k m
    rw [hiff k m]
    constructor
    · rintro (h' | h')
      · exact absurd h' listed_nil
      · exact h'
    · exact Or.inr

/-! Membership in the deduplicated pair set. -/

theorem mem_foldl_insert_pairs (k : String) (lst : List HashedImage)
    (acc : Finset (Finset String)) (s : Finset String) :
    s ∈ lst.foldl (fun a im => insert ({k, im.path} : Finset String) a) acc ↔
      s ∈ acc ∨ ∃ im ∈ lst, s = ({k, im.path} : Finset String) := by
  induction lst generalizing acc with
  | nil => simp
  | cons im t ih =>
    rw [List.foldl_cons, ih, Finset.mem_insert]
    constructor
    · rintro ((h | h) | ⟨im', hm, hs⟩)
      · exact Or.inr ⟨im, List.mem_cons_self _ _, h⟩
      · exact Or.inl h
      · exact Or.inr ⟨im', List.mem_cons_of_mem _ hm, hs⟩
    · rintro (h | ⟨im', hm, hs⟩)
      · exact Or.inl (Or.inr h)
      · rcases List.mem_cons.mp hm with rfl | hm'
        · exact Or.inl (Or.inl hs)
        · exact Or.inr ⟨im', hm', hs⟩

theorem mem_similar_images_pairs (res : ResMap) (s : Finset String) :
    s ∈ similar_images_pairs res ↔
      ∃ k m, listed res k m ∧ s = ({k, m.path} : Finset String) := by
  suffices h : ∀ acc : Finset (Finset String),
      s ∈ res.foldl (fun acc kv =>
        kv.2.foldl (fun a im => insert ({kv.1, im.path} : Finset String) a) acc) acc ↔
        s ∈ acc ∨ ∃ k m, listed res k m ∧ s = ({k, m.path} : Finset String) by
    rw [similar_images_pairs, h ∅]
    simp
  induction res with
  | nil =>
    intro acc
    simp [listed]
  | cons kv rest ih =>
    intro acc
    obtain ⟨a, bs⟩ := kv
    rw [List.foldl_cons, ih, mem_foldl_insert_pairs]
    constructor
    · rintro ((h | ⟨im, hm, hs⟩) | ⟨k, m, hl, hs⟩)
      · exact Or.inl h
      · exact Or.inr ⟨a, im, listed_cons.mpr (Or.inl ⟨rfl, hm⟩), hs⟩
      · exact Or.inr ⟨k, m, listed_cons.mpr (Or.inr hl), hs⟩
    · rintro (h | ⟨k, m, hl, hs⟩)
      · exact Or.inl (Or.inl h)
      · rcases listed_cons.mp hl with ⟨rfl, hm⟩ | hl'
        · exact Or.inl (Or.inr ⟨m, hm, hs⟩)
        · exact Or.inr ⟨k, m, hl', hs⟩

/-! Properties every listed match enjoys. -/

theorem listed_props {cfg : SimConfig} {existing : List String}
    {newImgs : Option (List String)} {r : Nat} {res : ResMap}
    (h : get_similar_images cfg existing newImgs r = .ok res) {k : String}
    {m : HashedImage} (hl : listed res k m) :
    hashedEq cfg.realpath (mkHashedImage cfg k) m = false ∧
    m.hashFunc = "phash" ∧ cfg.realpath m.path ≠ cfg.realpath k ∧ m.path ≠ k := by
  obtain ⟨-, hiff, -⟩ := get_similar_images_ok_spec h
  obtain ⟨hk, hm⟩ := (hiff k m).mp hl
  obtain ⟨heq, hmem, -⟩ := matchesOf_mem_spec hm
  obtain ⟨kv, hkv, hkveq⟩ := List.mem_map.mp hmem
  have hent := builtImages_entry hkv
  have hfn : m.hashFunc = "phash" := by
    rw [← hkveq, hent.1]
    rfl
  have heq0 := heq
  have hcond : (mkHashedImage cfg k).hashFunc = m.hashFunc := by
    rw [hfn]
    rfl
  unfold hashedEq at heq
  rw [if_pos hcond] at heq
  have hrp : ¬ cfg.realpath (mkHashedImage cfg k).path = cfg.realpath m.path :=
    of_decide_eq_false heq
  have hrp' : cfg.realpath k ≠ cfg.realpath m.path := hrp
  exact ⟨heq0, hfn, fun hc => hrp' hc.symm, fun hc => hrp' (by rw [hc])⟩

/-- C2: no entry of the match map returned by `get_similar_images` pairs a
query with a match whose identity — the (hash function, realpath-resolved
path) pair compared by `HashedImage.__eq__` — equals the query's own
identity; in particular the query's own fingerprint (always at distance 0)
is never listed among its own matches, at every sensitivity. -/
theorem no_self_match (cfg : SimConfig) (existing : List String)
    (newImgs : Option (List String)) (r : Nat) (res : ResMap)
    (h : get_similar_images cfg existing newImgs r = .ok res) :
    ∀ k ms, (k, ms) ∈ res → ∀ m ∈ ms,
      hashedEq cfg.realpath (mkHashedImage cfg k) m = false ∧
      ¬ (m.hashFunc = (mkHashedImage cfg k).hashFunc ∧
        cfg.realpath m.path = cfg.realpath k) ∧
      m ≠ mkHashedImage cfg k := by
  intro k ms hkms m hm
  have hl : listed res k m := ⟨ms, hkms, hm⟩
  obtain ⟨heq, hfn, hrp, hpath⟩ := listed_props h hl
  refine ⟨heq, ?_, ?_⟩
  · rintro ⟨-, hc⟩
    exact hrp hc
  · intro hc
    apply hrp
    rw [hc]
    rfl

/-- Witness instantiating C2 on a concrete two-image self-comparison run. -/
theorem no_self_match_witness :
    get_similar_images cfgW ["a", "b"] none 4 = .ok resW ∧
    (∀ k ms, (k, ms) ∈ resW → ∀ m ∈ ms,
      hashedEq cfgW.realpath (mkHashedImage cfgW k) m = false ∧
      ¬ (m.hashFunc = (mkHashedImage cfgW k).hashFunc ∧
        cfgW.realpath m.path = cfgW.realpath k) ∧
      m ≠ mkHashedImage cfgW k) :=
  ⟨by decide, no_self_match cfgW ["a", "b"] none 4 resW (by decide)⟩

/-- C3: the output of `similar_images_pairs` has set semantics — a pair is
a member exactly when some directional entry of the match map produces it,
and `{A, B}` and `{B, A}` are one and the same `Finset`, so each unordered
pair occurs exactly once however many directional entries produce it — and
every member has exactly two distinct identifiers (no self pair). -/
theorem similar_pairs_set_semantics (cfg : SimConfig) (existing : List String)
    (newImgs : Option (List String)) (r : Nat) (res : ResMap)
    (h : get_similar_images cfg existing newImgs r = .ok res) :
    (∀ s, s ∈ similar_images_pairs res ↔
      ∃ k m, listed res k m ∧ s = ({k, m.path} : Finset String)) ∧
    (∀ (k : String) (m : HashedImage),
      ({k, m.path} : Finset String) = ({m.path, k} : Finset String)) ∧
    (∀ s ∈ similar_images_pairs res, s.card = 2) := by
  refine ⟨fun s => mem_similar_images_pairs res s, fun k m => Finset.pair_comm k m.path, ?_⟩
  intro s hs
  obtain ⟨k, m, hl, rfl⟩ := (mem_similar_images_pairs res s).mp hs
  obtain ⟨-, -, -, hpath⟩ := listed_props h hl
  exact Finset.card_pair (fun hc => hpath hc.symm)

/-- Witness instantiating C3 on a concrete two-image run. -/
theorem similar_pairs_set_semantics_witness :
    get_similar_images cfgW ["a", "b"] none 4 = .ok resW ∧
    ((∀ s, s ∈ similar_images_pairs resW ↔
        ∃ k m, listed resW k m ∧ s = ({k, m.path} : Finset String)) ∧
      (∀ (k : String) (m : HashedImage),
        ({k, m.path} : Finset String) = ({m.path, k} : Finset String)) ∧
      (∀ s ∈ similar_images_pairs resW, s.card = 2)) :=
  ⟨by decide, similar_pairs_set_semantics cfgW ["a", "b"] none 4 resW (by decide)⟩

/-- C4: for a fixed fingerprint collection and thresholds T < T', every
unordered pair the pipeline reports at threshold T is also reported at
threshold T'. -/
theorem threshold_monotone (cfg : SimConfig) (existing : List String)
    (newImgs : Option (List String)) (T T' : Nat) (hTT : T < T')
    (resT resT' : ResMap)
    (hT : get_similar_images cfg existing newImgs T = .ok resT)
    (hT' : get_similar_images cfg existing newImgs T' = .ok resT') :
    similar_images_pairs resT ⊆ similar_images_pairs resT' := by
  intro s hs
  rw [mem_similar_images_pairs] at hs ⊢
  obtain ⟨k, m, hl, hseq⟩ := hs
  obtain ⟨-, hiffT, -⟩ := get_similar_images_ok_spec hT
  obtain ⟨-, hiffT', -⟩ := get_similar_images_ok_spec hT'
  obtain ⟨hk, hm⟩ := (hiffT k m).mp hl
  exact ⟨k, m, (hiffT' k m).mpr ⟨hk, matchesOf_mono (le_of_lt hTT) m hm⟩, hseq⟩

/-- Witness instantiating C4 at thresholds 1 < 2 on a concrete run. -/
theorem threshold_monotone_witness :
    (1 : Nat) < 2 ∧ similar_images_pairs resW ⊆ similar_images_pairs resW :=
  ⟨by norm_num,
    threshold_monotone cfgW ["a", "b"] none 1 2 (by norm_num) resW resW
      (by decide) (by decide)⟩

/-- C7 (divergence): with an empty image collection, `image_list` is empty
and the KDTree constructor raises `ValueError` (an empty list is not a 2-d
array of points), so `get_similar_images` propagates an exception instead
of returning the empty mapping. -/
theorem empty_input_raises_value_error (cfg : SimConfig) (r : Nat) :
    get_similar_images cfg [] none r = .error SimError.valueError := rfl

/-- C10: every key present in the returned match map maps to a non-empty
match list — a query with no surviving match never appears as a key
(`defaultdict` only creates the key at the first append). -/
theorem res_values_nonempty (cfg : SimConfig) (existing : List String)
    (newImgs : Option (List String)) (r : Nat) (res : ResMap)
    (h : get_similar_images cfg existing newImgs r = .ok res) :
    ∀ k ms, (k, ms) ∈ res → ms ≠ [] := by
  obtain ⟨hne, -, -⟩ := get_similar_images_ok_spec h
  intro k ms hk
  exact hne (k, ms) hk

/-- Witness instantiating C10 on a concrete run with matches. -/
theorem res_values_nonempty_witness :
    get_similar_images cfgW ["a", "b"] none 4 = .ok resW ∧
    (∀ k ms, (k, ms) ∈ resW → ms ≠ []) :=
  ⟨by decide, res_values_nonempty cfgW ["a", "b"] none 4 resW (by decide)⟩

/-- C8: in self-comparison mode, with fingerprints that pairwise differ in
at least one bit, sensitivity 0 yields an empty match map and so an empty
pair set: the only hits at distance 0 are the queries themselves, and the
self-match exclusion removes them. -/
theorem threshold_zero_empty (cfg : SimConfig) (existing : List String)
    (hdist : ∀ p ∈ existing, ∀ q ∈ existing, p ≠ q →
      (mkHashedImage cfg p).bits ≠ (mkHashedImage cfg q).bits)
    (res : ResMap) (h : get_similar_images cfg existing none 0 = .ok res) :
    res = [] ∧ similar_images_pairs res = ∅ := by
  obtain ⟨hne, hiff, hkd⟩ := get_similar_images_ok_spec h
  have hnolist : ∀ k m, ¬ listed res k m := by
    intro k m hl
    obtain ⟨hk, hm⟩ := (hiff k m).mp hl
    obtain ⟨heq, hmem, hd0⟩ := matchesOf_mem_spec hm
    obtain ⟨kv, hkv, hkveq⟩ := List.mem_map.mp hmem
    have hent := builtImages_entry hkv
    have hmk : m = mkHashedImage cfg kv.1 := by
      rw [← hkveq, hent.1]
    have hpex : kv.1 ∈ existing := by
      rcases hent.2 with h' | ⟨ns, hns, -⟩
      · exact h'
      · cases hns
    have hkex : k ∈ existing := hk
    have hkimg : mkHashedImage cfg k ∈ (builtImages cfg existing none).map Prod.snd :=
      List.mem_map_of_mem Prod.snd
        (dictLookup_mem (queryPaths_lookup cfg existing none k hk))
    obtain ⟨-, hunif⟩ := kdtreeBuild_ok_lengths hkd
    have hlen : m.bits.length = (mkHashedImage cfg k).bits.length :=
      hunif _ (List.mem_map_of_mem HashedImage.bits hmem) _
        (List.mem_map_of_mem HashedImage.bits hkimg)
    have hd0' : sqDistZ m.bits (mkHashedImage cfg k).bits ≤ 0 := by
      simpa using hd0
    have hbits : m.bits = (mkHashedImage cfg k).bits := (sqDistZ_le_zero_iff hlen).mp hd0'
    by_cases hpk : kv.1 = k
    · rw [hpk] at hmk
      rw [hmk, hashedEq_self] at heq
      simp at heq
    · apply hdist kv.1 hpex k hkex hpk
      rw [← hmk]
      exact hbits
  have hres : res = [] := by
    cases hres0 : res with
    | nil => rfl
    | cons kv rest =>
      exfalso
      obtain ⟨a, bs⟩ := kv
      have hbs : bs ≠ [] := hne (a, bs) (by rw [hres0]; exact List.mem_cons_self _ _)
      cases hbs0 : bs with
      | nil => exact hbs hbs0
      | cons m t =>
        exact hnolist a m
          ⟨bs, by rw [hres0]; exact List.mem_cons_self _ _,
            by rw [hbs0]; exact List.mem_cons_self _ _⟩
  refine ⟨hres, ?_⟩
  rw [hres]
  rfl

/-- Witness instantiating C8 on a concrete run with two bit-distinct
fingerprints. -/
theorem threshold_zero_empty_witness :
    (∀ p ∈ ["a", "b"], ∀ q ∈ ["a", "b"], p ≠ q →
      (mkHashedImage cfgW p).bits ≠ (mkHashedImage cfgW q).bits) ∧
    (([] : ResMap) = [] ∧ similar_images_pairs [] = ∅) :=
  ⟨by decide, threshold_zero_empty cfgW ["a", "b"] (by decide) [] (by decide)⟩

/-- C9 is refuted: the code contains no width check and no
`ConfigurationError`.  A run that produces two fingerprints of different
bit widths (hash values 0 and `2 ^ 64` give 64 and 65 bits — widths this
code can only produce through a hash wider than the fixed 8×8 default)
raises no `ConfigurationError`; it instead fails with the KDTree
constructor's `ValueError` on the ragged data, during — not before — index
construction. -/
theorem mixed_width_no_configuration_error :
    (mkHashedImage cfgMixed "a").bits.length = 64 ∧
    (mkHashedImage cfgMixed "b").bits.length = 65 ∧
    get_similar_images cfgMixed ["a", "b"] none 4 = .error SimError.valueError ∧
    get_similar_images cfgMixed ["a", "b"] none 4 ≠ .error SimError.configurationError :=
  ⟨by decide, by decide, by decide, by decide⟩

/-- C9 amended: mixed hash widths are never rejected with
`ConfigurationError` — the code defines no such check; whenever the run
produces two fingerprints of different bit-vector widths, from the existing
images, the new images, or one of each, `get_similar_images` fails with
`ValueError` at index construction. -/
theorem mixed_width_value_error (cfg : SimConfig) (existing : List String)
    (newImgs : Option (List String)) (r : Nat) (p q : String)
    (hp : p ∈ existing ∨ ∃ ns, newImgs = some ns ∧ p ∈ ns)
    (hq : q ∈ existing ∨ ∃ ns, newImgs = some ns ∧ q ∈ ns)
    (hw : (mkHashedImage cfg p).bits.length ≠ (mkHashedImage cfg q).bits.length) :
    get_similar_images cfg existing newImgs r = .error SimError.valueError := by
  have hpv : mkHashedImage cfg p ∈ (builtImages cfg existing newImgs).map Prod.snd :=
    List.mem_map_of_mem Prod.snd
      (dictLookup_mem (store_lookup cfg existing newImgs p hp))
  have hqv : mkHashedImage cfg q ∈ (builtImages cfg existing newImgs).map Prod.snd :=
    List.mem_map_of_mem Prod.snd
      (dictLookup_mem (store_lookup cfg existing newImgs q hq))
  have hkd := kdtreeBuild_ragged (List.mem_map_of_mem HashedImage.bits hpv)
    (List.mem_map_of_mem HashedImage.bits hqv) hw
  unfold get_similar_images
  simp only
  rw [hkd]

/-- Witness instantiating the amended C9 on a concrete cross-collection
mixed-width run: the 64-bit fingerprint comes from the existing list, the
65-bit one only from the new-images list. -/
theorem mixed_width_value_error_witness :
    get_similar_images cfgMixed ["a"] (some ["b"]) 4 = .error SimError.valueError :=
  mixed_width_value_error cfgMixed ["a"] (some ["b"]) 4 "a" "b"
    (Or.inl (by decide)) (Or.inr ⟨["b"], rfl, by decide⟩) (by decide)
